import Mathlib

/-!
Verification of the Harvestflow semantic clustering core
(`src/cluster/topics.ts`): seed extraction, candidate-topic construction
via an in-memory vector index, and the greedy deduplicating assignment
that turns overlapping similarity results into a disjoint partition.

The repository snapshot does not contain `src/semantic/localEmbed.js`,
`src/semantic/memStore.js` or `src/flows/build.js`; those components are
modelled from the spec (sections 4.1, 4.2, 4.5), and `cluster` is kept
parametric in the embedder, the similarity policy and the UUID source so
that the theorems hold for every choice the missing code could make.
-/

set_option maxHeartbeats 1000000

namespace Harvestflow

/-- A chat message: `id` is optional, the text may arrive in either of the
`text` or `content` fields (`msg.text ?? msg.content ?? ""` in the source). -/
structure Message where
  id : Option String
  role : String
  text : Option String
  content : Option String
deriving Repr, DecidableEq

/-- A topic seed, as built in `cluster`: the source message id (kept even
when absent) and a short title. -/
structure Seed where
  id : Option String
  title : String
deriving Repr, DecidableEq

/-- A topic: a title plus an ordered id list.  The source pushes
`seed.id` (possibly `undefined`) together with string hit ids into one
array, so ids are modelled as `Option String`. -/
structure Topic where
  title : String
  ids : List (Option String)
deriving Repr, DecidableEq

/-- Modelled from the spec (section 3): a VectorIndex record
`{ id, embedding, metadata: {role, text} }`, keyed uniquely by id. -/
structure VectorRecord where
  id : String
  vec : List Int
  role : String
  text : String
deriving Repr, DecidableEq

/-- Modelled from the spec (section 4.5): a Flow record with a generated
identifier, the topic title, one node carrying the topic id list, an
initially empty deliverables sequence and placeholder metrics. -/
structure Flow where
  id : String
  title : String
  nodes : List (List (Option String))
  deliverables : List String
  metrics : List Int
deriving Repr, DecidableEq

/-- Text normalization `msg.text ?? msg.content ?? ""` from the source. -/
def msgText (m : Message) : String :=
  m.text.getD (m.content.getD "")

/-- Title derivation `(t).split("\n")[0]?.slice(0, 80) || ""` from the
source: first line, truncated to 80 characters. -/
def firstLine80 (t : String) : String :=
  String.mk ((t.toList.takeWhile (fun c => c ≠ '\n')).take 80)

/-- JavaScript truthiness of `msg.id` in `msg.id || randomUUID()`: an
absent or empty id is falsy and triggers a generated UUID. -/
def idKey : Option String → Option String
  | none => none
  | some s => if s = "" then none else some s

/-- Modelled from the spec (section 4.2, `src/semantic/memStore.js` is not
in the snapshot): upsert overwrites any existing record for the id in
place (first-inserted position kept), otherwise appends. -/
def upsert (store : List VectorRecord) (r : VectorRecord) : List VectorRecord :=
  if r.id ∈ store.map VectorRecord.id then
    store.map (fun x => if x.id = r.id then r else x)
  else store ++ [r]

/-- Stable insertion into a descending-score list: the inserted record
goes before every strictly smaller score and, among ties, before records
that were inserted into the index later (first inserted wins). -/
def insertDesc (score : VectorRecord → Int) (r : VectorRecord) :
    List VectorRecord → List VectorRecord
  | [] => [r]
  | x :: xs =>
    if score x ≤ score r then r :: x :: xs
    else x :: insertDesc score r xs

/-- Stable sort of the store by descending score; ties keep ascending
insertion order. -/
def sortDesc (score : VectorRecord → Int) : List VectorRecord → List VectorRecord
  | [] => []
  | x :: xs => insertDesc score x (sortDesc score xs)

/-- Modelled from the spec (section 4.2): `query(embedding, k)` ranks the
stored records by similarity to the query embedding (descending score,
ties by ascending insertion order) and returns at most `k` of them. -/
def query (sim : List Int → List Int → Int) (q : List Int) (k : Nat)
    (store : List VectorRecord) : List VectorRecord :=
  (sortDesc (fun r => sim q r.vec) store).take k

/-- The ingestion loop of `cluster`: each message of the (already
role-filtered) list is upserted under `msg.id || randomUUID()` with its
embedding and `{role, text}` metadata.  The `n`-th falsy-id message
consumes `uuid n`. -/
def ingest (embd : String → List Int) (uuid : Nat → String) :
    Nat → List VectorRecord → List Message → List VectorRecord
  | _, store, [] => store
  | n, store, m :: ms =>
    match idKey m.id with
    | some s =>
      ingest embd uuid n
        (upsert store { id := s, vec := embd (msgText m), role := m.role, text := msgText m }) ms
    | none =>
      ingest embd uuid (n + 1)
        (upsert store { id := uuid n, vec := embd (msgText m), role := m.role, text := msgText m }) ms

/-- Seed extraction from `cluster`: user messages in original order, title
from the first line truncated to 80 characters, empty titles dropped, then
the first 12. -/
def extractSeeds (messages : List Message) : List Seed :=
  (((messages.filter (fun m => decide (m.role = "user"))).map
      (fun m => Seed.mk m.id (firstLine80 (msgText m)))).filter
    (fun s => decide (s.title ≠ ""))).take 12

/-- One pass of the claiming filter of `cluster`
(`topic.ids.filter(id => !assigned.has(id) && assigned.add(id))`):
returns the kept ids in order together with the grown assigned set. -/
def claimIds : List (Option String) → List (Option String) →
    List (Option String) × List (Option String)
  | assigned, [] => ([], assigned)
  | assigned, i :: is =>
    if i ∈ assigned then claimIds assigned is
    else
      let p := claimIds (i :: assigned) is
      (i :: p.1, p.2)

/-- `Array.from(new Set(xs))` from the source: deduplication keeping the
first occurrence of each element, in encounter order. -/
def dedupKeepFirst (l : List (Option String)) : List (Option String) :=
  (claimIds [] l).1

/-- The final map of `cluster`: thread the shared assigned set through
the topics in order, keeping only ids not already claimed. -/
def resolve : List (Option String) → List Topic → List Topic
  | _, [] => []
  | assigned, t :: ts =>
    let p := claimIds assigned t.ids
    { title := t.title, ids := p.1 } :: resolve p.2 ts

/-- The candidate topics of `cluster`, before the claiming pass: for each
seed, the seed id followed by the ids of the top-50 query hits,
deduplicated keeping first occurrence. -/
def candidateTopics (embd : String → List Int) (sim : List Int → List Int → Int)
    (uuid : Nat → String) (messages : List Message) : List Topic :=
  let store := ingest embd uuid 0 [] (messages.filter (fun m => decide (m.role ≠ "tool")))
  (extractSeeds messages).map (fun s =>
    Topic.mk s.title
      (dedupKeepFirst (s.id :: (query sim (embd s.title) 50 store).map (fun r => some r.id))))

/-- The `cluster` function of `src/cluster/topics.ts`, parametric in the
embedder, the similarity policy of the index, and the UUID source used
for messages without a (truthy) id. -/
def cluster (embd : String → List Int) (sim : List Int → List Int → Int)
    (uuid : Nat → String) (messages : List Message) : List Topic :=
  resolve [] (candidateTopics embd sim uuid messages)

/-- Modelled from the spec (section 4.5, `src/flows/build.js` is not in
the snapshot): one Flow per Topic in order, each with a freshly generated
identifier, the topic title, a single node holding the topic id list,
empty deliverables and placeholder metrics. -/
def buildFlows (uuid : Nat → String) (topics : List Topic) : List Flow :=
  ((List.range topics.length).zip topics).map (fun p =>
    Flow.mk (uuid p.1) p.2.title [p.2.ids] [] [])

/-- Spec-worded seed extraction, for the refinement claim C4: take the
user messages in original order, give each the title formed from the
first line of its text truncated to 80 characters, drop empty titles,
and keep the first 12 of what remains. -/
def specSeeds (messages : List Message) : List Seed :=
  (messages.filterMap (fun m =>
    if m.role = "user" then
      if firstLine80 (msgText m) = "" then none
      else some (Seed.mk m.id (firstLine80 (msgText m)))
    else none)).take 12

/-- Number of qualifying user messages (spec wording): role `user` and a
non-empty derived title. -/
def qualifyingCount (messages : List Message) : Nat :=
  (messages.filter (fun m => decide (m.role = "user" ∧ firstLine80 (msgText m) ≠ ""))).length

/-- Modelled from the spec (section 4.1, `src/semantic/localEmbed.js` is
not in the snapshot): a deterministic hashed bag-of-tokens embedding of
fixed dimension 8, used to instantiate witnesses and counterexamples. -/
def embedM (t : String) : List Int :=
  (List.range 8).map (fun i => Int.ofNat ((t.toList.filter (fun c => c.toNat % 8 = i)).length))

/-- A concrete symmetric similarity (dot product), instantiating the
replaceable similarity policy of the spec for witnesses. -/
def dotSim (a b : List Int) : Int :=
  ((a.zip b).map (fun p => p.1 * p.2)).sum

/-- A concrete deterministic UUID source for witnesses. -/
def uuidN (n : Nat) : String :=
  "uuid-" ++ toString n

/-- Default topic used with `List.getD`. -/
def defTopic : Topic := ⟨"", []⟩

/-- Default seed used with `List.getD`. -/
def defSeed : Seed := ⟨none, ""⟩

/-! ### Lemmas about the claiming pass -/

theorem claimIds_fst_subset (l : List (Option String)) :
    ∀ a x, x ∈ (claimIds a l).1 → x ∈ l := by
  induction l with
  | nil => intro a x h; simp [claimIds] at h
  | cons i is ih =>
    intro a x h
    by_cases hi : i ∈ a
    · simp only [claimIds, if_pos hi] at h
      exact List.mem_cons_of_mem _ (ih a x h)
    · simp only [claimIds, if_neg hi, List.mem_cons] at h
      rcases h with h | h
      · exact h ▸ List.mem_cons_self _ _
      · exact List.mem_cons_of_mem _ (ih _ x h)

theorem claimIds_fst_not_assigned (l : List (Option String)) :
    ∀ a x, x ∈ (claimIds a l).1 → x ∉ a := by
  induction l with
  | nil => intro a x h; simp [claimIds] at h
  | cons i is ih =>
    intro a x h
    by_cases hi : i ∈ a
    · simp only [claimIds, if_pos hi] at h
      exact ih a x h
    · simp only [claimIds, if_neg hi, List.mem_cons] at h
      rcases h with rfl | h
      · exact hi
      · intro hx
        exact ih _ x h (List.mem_cons_of_mem _ hx)

theorem claimIds_fst_nodup (l : List (Option String)) :
    ∀ a, (claimIds a l).1.Nodup := by
  induction l with
  | nil => intro a; simp [claimIds]
  | cons i is ih =>
    intro a
    by_cases hi : i ∈ a
    · simpa only [claimIds, if_pos hi] using ih a
    · simp only [claimIds, if_neg hi, List.nodup_cons]
      refine ⟨fun hmem => ?_, ih _⟩
      exact claimIds_fst_not_assigned is _ i hmem (List.mem_cons_self _ _)

theorem claimIds_snd_mem (l : List (Option String)) :
    ∀ a x, x ∈ (claimIds a l).2 ↔ x ∈ (claimIds a l).1 ∨ x ∈ a := by
  induction l with
  | nil => intro a x; simp [claimIds]
  | cons i is ih =>
    intro a x
    by_cases hi : i ∈ a
    · simp only [claimIds, if_pos hi]
      exact ih a x
    · simp only [claimIds, if_neg hi, List.mem_cons]
      rw [ih (i :: a) x]
      simp only [List.mem_cons]
      tauto

theorem claimIds_fst_mem_of (l : List (Option String)) :
    ∀ a x, x ∈ l → x ∉ a → x ∈ (claimIds a l).1 := by
  induction l with
  | nil => intro a x h; simp at h
  | cons i is ih =>
    intro a x hmem hx
    by_cases hxi : x = i
    · subst hxi
      simp [claimIds, if_neg hx, List.mem_cons]
    · have hx' : x ∈ is := by
        rcases List.mem_cons.1 hmem with h | h
        · exact absurd h hxi
        · exact h
      by_cases hi : i ∈ a
      · simp only [claimIds, if_pos hi]
        exact ih a x hx' hx
      · simp only [claimIds, if_neg hi, List.mem_cons]
        refine Or.inr (ih _ x hx' ?_)
        simp only [List.mem_cons, not_or]
        exact ⟨hxi, hx⟩

theorem claimIds_fst_length_le (l : List (Option String)) :
    ∀ a, (claimIds a l).1.length ≤ l.length := by
  induction l with
  | nil => intro a; simp [claimIds]
  | cons i is ih =>
    intro a
    by_cases hi : i ∈ a
    · simp only [claimIds, if_pos hi, List.length_cons]
      exact Nat.le_succ_of_le (ih a)
    · simp only [claimIds, if_neg hi, List.length_cons]
      exact Nat.succ_le_succ (ih _)

theorem claimIds_fst_of_nodup (l : List (Option String)) :
    ∀ a, l.Nodup → (claimIds a l).1 = l.filter (fun x => decide (x ∉ a)) := by
  induction l with
  | nil => intro a _; simp [claimIds]
  | cons i is ih =>
    intro a hnd
    rcases List.nodup_cons.1 hnd with ⟨hi_is, hnd'⟩
    by_cases hi : i ∈ a
    · simp only [claimIds, if_pos hi]
      rw [ih a hnd', List.filter_cons_of_neg]
      simp [hi]
    · simp only [claimIds, if_neg hi]
      rw [ih _ hnd', List.filter_cons_of_pos]
      · congr 1
        apply List.filter_congr
        intro x hx
        have hxi : x ≠ i := fun h => hi_is (h ▸ hx)
        simp [List.mem_cons, hxi]
      · simp [hi]

/-! ### Lemmas about the resolve pass -/

theorem resolve_map_title (ts : List Topic) :
    ∀ a, (resolve a ts).map Topic.title = ts.map Topic.title := by
  induction ts with
  | nil => intro a; simp [resolve]
  | cons t ts ih => intro a; simp [resolve, ih]

theorem resolve_length (ts : List Topic) :
    ∀ a, (resolve a ts).length = ts.length := by
  induction ts with
  | nil => intro a; simp [resolve]
  | cons t ts ih => intro a; simp [resolve, ih]

theorem resolve_flatten_nodup (ts : List Topic) :
    ∀ a, (((resolve a ts).map Topic.ids).flatten.Nodup ∧
      ∀ x ∈ ((resolve a ts).map Topic.ids).flatten, x ∉ a) := by
  induction ts with
  | nil => intro a; simp [resolve]
  | cons t ts ih =>
    intro a
    simp only [resolve, List.map_cons, List.flatten_cons]
    have hkept := claimIds_fst_nodup t.ids a
    have htail := ih (claimIds a t.ids).2
    constructor
    · rw [List.nodup_append]
      refine ⟨hkept, htail.1, ?_⟩
      intro x hx hx'
      exact htail.2 x hx' ((claimIds_snd_mem t.ids a x).2 (Or.inl hx))
    · intro x hx
      rcases List.mem_append.1 hx with hx | hx
      · exact claimIds_fst_not_assigned t.ids a x hx
      · intro hxa
        exact htail.2 x hx ((claimIds_snd_mem t.ids a x).2 (Or.inr hxa))

theorem resolve_flatten_subset (ts : List Topic) :
    ∀ a x, x ∈ ((resolve a ts).map Topic.ids).flatten →
      ∃ t, t ∈ ts ∧ x ∈ t.ids := by
  induction ts with
  | nil => intro a x h; simp [resolve] at h
  | cons t ts ih =>
    intro a x h
    simp only [resolve, List.map_cons, List.flatten_cons, List.mem_append] at h
    rcases h with h | h
    · exact ⟨t, List.mem_cons_self _ _, claimIds_fst_subset t.ids a x h⟩
    · rcases ih _ x h with ⟨t0, ht0, hx⟩
      exact ⟨t0, List.mem_cons_of_mem _ ht0, hx⟩

theorem resolve_mem_topic (ts : List Topic) :
    ∀ a t, t ∈ resolve a ts → ∃ t0, t0 ∈ ts ∧ t.ids.length ≤ t0.ids.length := by
  induction ts with
  | nil => intro a t h; simp [resolve] at h
  | cons t0 ts ih =>
    intro a t h
    simp only [resolve, List.mem_cons] at h
    rcases h with rfl | h
    · exact ⟨t0, List.mem_cons_self _ _, claimIds_fst_length_le t0.ids a⟩
    · rcases ih _ t h with ⟨t1, ht1, hlen⟩
      exact ⟨t1, List.mem_cons_of_mem _ ht1, hlen⟩

/-! ### Lemmas about the index model -/

theorem mem_insertDesc (score : VectorRecord → Int) (r : VectorRecord) (l : List VectorRecord) :
    ∀ x, x ∈ insertDesc score r l ↔ x = r ∨ x ∈ l := by
  induction l with
  | nil => intro x; simp [insertDesc]
  | cons y ys ih =>
    intro x
    by_cases h : score y ≤ score r
    · simp [insertDesc, if_pos h]
    · simp only [insertDesc, if_neg h, List.mem_cons, ih]
      tauto

theorem mem_sortDesc (score : VectorRecord → Int) (l : List VectorRecord) :
    ∀ x, x ∈ sortDesc score l ↔ x ∈ l := by
  induction l with
  | nil => intro x; simp [sortDesc]
  | cons y ys ih =>
    intro x
    simp [sortDesc, mem_insertDesc, ih, List.mem_cons]

theorem query_subset (sim : List Int → List Int → Int) (q : List Int) (k : Nat)
    (store : List VectorRecord) :
    ∀ r, r ∈ query sim q k store → r ∈ store := by
  intro r hr
  exact (mem_sortDesc _ store r).1 (List.take_subset _ _ hr)

theorem query_length_le (sim : List Int → List Int → Int) (q : List Int) (k : Nat)
    (store : List VectorRecord) : (query sim q k store).length ≤ k :=
  List.length_take_le k _

theorem upsert_length_le (store : List VectorRecord) (r : VectorRecord) :
    (upsert store r).length ≤ store.length + 1 := by
  unfold upsert
  split
  · simp
  · simp

theorem upsert_id_mem (store : List VectorRecord) (r : VectorRecord) :
    r.id ∈ (upsert store r).map VectorRecord.id := by
  unfold upsert
  split
  · rename_i h
    rcases List.mem_map.1 h with ⟨x, hx, hid⟩
    refine List.mem_map.2 ⟨r, ?_, rfl⟩
    refine List.mem_map.2 ⟨x, hx, ?_⟩
    simp [hid]
  · simp

theorem upsert_id_mono (store : List VectorRecord) (r : VectorRecord) (k : String) :
    k ∈ store.map VectorRecord.id → k ∈ (upsert store r).map VectorRecord.id := by
  intro hk
  unfold upsert
  split
  · rcases List.mem_map.1 hk with ⟨x, hx, hid⟩
    by_cases hxr : x.id = r.id
    · refine List.mem_map.2 ⟨r, ?_, by rw [← hid, hxr]⟩
      refine List.mem_map.2 ⟨x, hx, by simp [hxr]⟩
    · refine List.mem_map.2 ⟨x, ?_, hid⟩
      refine List.mem_map.2 ⟨x, hx, by simp [hxr]⟩
  · rw [List.map_append, List.mem_append]
    exact Or.inl hk

theorem ingest_length_le (embd : String → List Int) (uuid : Nat → String)
    (ms : List Message) :
    ∀ n store, (ingest embd uuid n store ms).length ≤ store.length + ms.length := by
  induction ms with
  | nil => intro n store; simp [ingest]
  | cons m ms ih =>
    intro n store
    cases h : idKey m.id with
    | some s =>
      simp only [ingest, h]
      calc (ingest embd uuid n (upsert store _) ms).length
          ≤ (upsert store _).length + ms.length := ih _ _
        _ ≤ store.length + 1 + ms.length :=
            Nat.add_le_add_right (upsert_length_le _ _) _
        _ = store.length + (m :: ms).length := by simp [List.length_cons]; omega
    | none =>
      simp only [ingest, h]
      calc (ingest embd uuid (n + 1) (upsert store _) ms).length
          ≤ (upsert store _).length + ms.length := ih _ _
        _ ≤ store.length + 1 + ms.length :=
            Nat.add_le_add_right (upsert_length_le _ _) _
        _ = store.length + (m :: ms).length := by simp [List.length_cons]; omega

theorem ingest_id_mono (embd : String → List Int) (uuid : Nat → String)
    (ms : List Message) (k : String) :
    ∀ n store, k ∈ store.map VectorRecord.id →
      k ∈ (ingest embd uuid n store ms).map VectorRecord.id := by
  induction ms with
  | nil => intro n store hk; simpa [ingest] using hk
  | cons m ms ih =>
    intro n store hk
    cases h : idKey m.id with
    | some s =>
      simp only [ingest, h]
      exact ih _ _ (upsert_id_mono store _ k hk)
    | none =>
      simp only [ingest, h]
      exact ih _ _ (upsert_id_mono store _ k hk)

theorem ingest_id_mem_of (embd : String → List Int) (uuid : Nat → String)
    (ms : List Message) (m : Message) (s : String) :
    ∀ n store, m ∈ ms → idKey m.id = some s →
      s ∈ (ingest embd uuid n store ms).map VectorRecord.id := by
  induction ms with
  | nil => intro n store h; simp at h
  | cons m0 ms ih =>
    intro n store hmem hkey
    rcases List.mem_cons.1 hmem with rfl | hmem'
    · simp only [ingest, hkey]
      exact ingest_id_mono embd uuid ms s _ _ (upsert_id_mem store _)
    · cases h : idKey m0.id with
      | some s0 =>
        simp only [ingest, h]
        exact ih _ _ hmem' hkey
      | none =>
        simp only [ingest, h]
        exact ih _ _ hmem' hkey

theorem ingest_uuid_irrel (embd : String → List Int) (u1 u2 : Nat → String)
    (ms : List Message) (h : ∀ m ∈ ms, idKey m.id ≠ none) :
    ∀ n1 n2 store, ingest embd u1 n1 store ms = ingest embd u2 n2 store ms := by
  induction ms with
  | nil => intro n1 n2 store; simp [ingest]
  | cons m ms ih =>
    intro n1 n2 store
    cases hk : idKey m.id with
    | some s =>
      simp only [ingest, hk]
      exact ih (fun m' hm' => h m' (List.mem_cons_of_mem _ hm')) _ _ _
    | none => exact absurd hk (h m (List.mem_cons_self _ _))

/-! ### Indexed characterization of the resolve pass -/

theorem resolve_getD_filter (ts : List Topic) :
    ∀ a, (∀ t ∈ ts, t.ids.Nodup) → ∀ i,
      ((resolve a ts).map Topic.ids).getD i [] =
        ((ts.map Topic.ids).getD i []).filter
          (fun x => decide (x ∉ a ∧ x ∉ (((resolve a ts).map Topic.ids).take i).flatten)) := by
  induction ts with
  | nil => intro a _ i; simp [resolve]
  | cons t ts ih =>
    intro a hnd i
    have hndt : t.ids.Nodup := hnd t (List.mem_cons_self _ _)
    have hndts : ∀ t0 ∈ ts, t0.ids.Nodup := fun t0 h0 => hnd t0 (List.mem_cons_of_mem _ h0)
    cases i with
    | zero =>
      simp only [resolve, List.map_cons, List.getD_cons_zero, List.take_zero,
        List.flatten_nil]
      rw [claimIds_fst_of_nodup t.ids a hndt]
      apply List.filter_congr
      intro x _
      simp
    | succ i =>
      simp only [resolve, List.map_cons, List.getD_cons_succ]
      rw [ih (claimIds a t.ids).2 hndts i]
      apply List.filter_congr
      intro x _
      apply decide_eq_decide.2
      rw [List.take_succ_cons, List.flatten_cons]
      simp only [List.mem_append, not_or]
      rw [claimIds_snd_mem t.ids a x]
      tauto

theorem resolve_getD_claim (ts : List Topic) :
    ∀ a i x, i < ts.length → x ∉ a →
      (∀ j, j < i → x ∉ (ts.getD j defTopic).ids) →
      ∃ b, x ∉ b ∧
        (resolve a ts).getD i defTopic =
          ⟨(ts.getD i defTopic).title, (claimIds b (ts.getD i defTopic).ids).1⟩ := by
  induction ts with
  | nil => intro a i x hi; exact absurd hi (Nat.not_lt_zero i)
  | cons t ts ih =>
    intro a i x hi hxa hprior
    cases i with
    | zero =>
      refine ⟨a, hxa, ?_⟩
      simp [resolve, List.getD_cons_zero]
    | succ i =>
      have hxt : x ∉ t.ids := hprior 0 (Nat.succ_pos i)
      have hxp : x ∉ (claimIds a t.ids).2 := by
        rw [claimIds_snd_mem t.ids a x]
        intro hc
        rcases hc with hc | hc
        · exact hxt (claimIds_fst_subset t.ids a x hc)
        · exact hxa hc
      have hi' : i < ts.length := Nat.lt_of_succ_lt_succ hi
      have hprior' : ∀ j, j < i → x ∉ (ts.getD j defTopic).ids := by
        intro j hj
        have := hprior (j + 1) (Nat.succ_lt_succ hj)
        simpa [List.getD_cons_succ] using this
      rcases ih (claimIds a t.ids).2 i x hi' hxp hprior' with ⟨b, hxb, heq⟩
      exact ⟨b, hxb, by simpa [resolve, List.getD_cons_succ] using heq⟩

/-! ### Concrete inputs for witnesses and counterexamples -/

/-- A user message without an id: `msg.id || randomUUID()` stores it
under a generated UUID while its seed keeps the absent id. -/
def msgNoId : Message := ⟨none, "user", some "hi", none⟩

/-- The scenario from the spec (section 8): two user messages around an
assistant reply, every message with an id. -/
def msgs3 : List Message :=
  [⟨some "1", "user", some "Fix login bug", none⟩,
   ⟨some "2", "assistant", some "Here is a fix", none⟩,
   ⟨some "3", "user", some "Fix login bug again", none⟩]

/-- Two user messages, both without ids: both seeds carry the absent id,
so only the first topic can keep it. -/
def msgs2n : List Message :=
  [⟨none, "user", some "hi", none⟩, ⟨none, "user", some "yo", none⟩]

/-! ### Claims -/

/-- Claim C1: for every input message list, the topics returned by
`cluster` have pairwise disjoint id sets, and no id occurs more than once
across the whole output. -/
theorem c1_disjointness (embd : String → List Int) (sim : List Int → List Int → Int)
    (uuid : Nat → String) (messages : List Message) :
    ((cluster embd sim uuid messages).map Topic.ids).flatten.Nodup ∧
      (cluster embd sim uuid messages).Pairwise
        (fun t1 t2 => ∀ x ∈ t1.ids, x ∉ t2.ids) := by
  have h := (resolve_flatten_nodup (candidateTopics embd sim uuid messages) []).1
  refine ⟨h, ?_⟩
  have hp := (List.nodup_flatten.1 h).2
  rw [List.pairwise_map] at hp
  exact hp.imp (fun hd x hx hx' => hd hx hx')

/-- Claim C7: `cluster` returns one topic per seed, in seed order, each
carrying its seed's title; empty topics are still present (the output is
a total function of the input, never an error). -/
theorem c7_output_shape (embd : String → List Int) (sim : List Int → List Int → Int)
    (uuid : Nat → String) (messages : List Message) :
    (cluster embd sim uuid messages).length = (extractSeeds messages).length ∧
      (cluster embd sim uuid messages).map Topic.title =
        (extractSeeds messages).map Seed.title := by
  constructor
  · simp only [cluster, candidateTopics]
    rw [resolve_length]
    simp
  · simp only [cluster, candidateTopics]
    rw [resolve_map_title, List.map_map]
    rfl

/-- Claim C8: empty input is success, not an error: `cluster` on the
empty message list returns the empty topic sequence, and `buildFlows` on
the empty topic sequence returns the empty flow sequence. -/
theorem c8_empty_input (embd : String → List Int) (sim : List Int → List Int → Int)
    (uuid : Nat → String) :
    cluster embd sim uuid [] = [] ∧ buildFlows uuid [] = [] :=
  ⟨rfl, rfl⟩

theorem candidateTopics_ids_nodup (embd : String → List Int)
    (sim : List Int → List Int → Int) (uuid : Nat → String) (messages : List Message) :
    ∀ t ∈ candidateTopics embd sim uuid messages, t.ids.Nodup := by
  intro t ht
  simp only [candidateTopics, List.mem_map] at ht
  rcases ht with ⟨s, _, rfl⟩
  exact claimIds_fst_nodup _ []

/-- Claim C5: the final membership of topic `i` is the candidate id list
of topic `i` (seed id first, then query hits in order, deduplicated)
minus every id claimed by topics `0..i-1`, kept in candidate order. -/
theorem c5_greedy_claim (embd : String → List Int) (sim : List Int → List Int → Int)
    (uuid : Nat → String) (messages : List Message) (i : Nat) :
    ((cluster embd sim uuid messages).map Topic.ids).getD i [] =
      (((candidateTopics embd sim uuid messages).map Topic.ids).getD i []).filter
        (fun x =>
          decide (x ∉ (((cluster embd sim uuid messages).map Topic.ids).take i).flatten)) := by
  have h := resolve_getD_filter (candidateTopics embd sim uuid messages) []
    (candidateTopics_ids_nodup embd sim uuid messages) i
  rw [cluster, h]
  apply List.filter_congr
  intro x _
  apply decide_eq_decide.2
  simp

/-- Claim C6: self-claim priority: if seed `i` is processed before any
other seed whose candidate set contains seed `i`'s own message id, then
the topic produced for seed `i` contains that id. -/
theorem c6_self_claim (embd : String → List Int) (sim : List Int → List Int → Int)
    (uuid : Nat → String) (messages : List Message) (i : Nat)
    (h : i < (extractSeeds messages).length)
    (hprior : ∀ j, j < i →
      ((extractSeeds messages).getD i defSeed).id ∉
        ((candidateTopics embd sim uuid messages).getD j defTopic).ids) :
    ((extractSeeds messages).getD i defSeed).id ∈
      ((cluster embd sim uuid messages).getD i defTopic).ids := by
  have hlen : i < (candidateTopics embd sim uuid messages).length := by
    simpa [candidateTopics] using h
  have hmem :
      ((extractSeeds messages).getD i defSeed).id ∈
        ((candidateTopics embd sim uuid messages).getD i defTopic).ids := by
    rw [List.getD_eq_getElem _ _ hlen]
    simp only [candidateTopics, List.getElem_map]
    rw [← List.getD_eq_getElem _ defSeed (by simpa [candidateTopics] using hlen)]
    exact claimIds_fst_mem_of _ [] _ (List.mem_cons_self _ _) (List.not_mem_nil _)
  rcases resolve_getD_claim (candidateTopics embd sim uuid messages) [] i
      ((extractSeeds messages).getD i defSeed).id hlen (List.not_mem_nil _) hprior with
    ⟨b, hxb, heq⟩
  rw [cluster, heq]
  exact claimIds_fst_mem_of _ b _ hmem hxb

/-- Witness for C6 at the spec scenario, seed 0. -/
theorem c6_self_claim_witness :
    0 < (extractSeeds msgs3).length ∧
      ((extractSeeds msgs3).getD 0 defSeed).id ∈
        ((cluster embedM dotSim uuidN msgs3).getD 0 defTopic).ids :=
  ⟨by decide, c6_self_claim embedM dotSim uuidN msgs3 0 (by decide)
    (fun j hj => absurd hj (Nat.not_lt_zero j))⟩

/-- Claim C9 as stated is false: with two id-less user messages, the
second one also satisfies the premise (a user message with no id and a
non-empty first line), but the topic produced for its seed is empty, so
its first element is not the absent id. -/
theorem c9_counterexample :
    ¬ (((cluster embedM dotSim uuidN msgs2n).getD 1 defTopic).ids.head? = some none) := by
  decide

/-- Claim C9 amended: the seed of an id-less user message keeps the
absent id, and for the first seed whose id is absent, the topic produced
has the absent id as its first element (a later id-less seed loses it to
the earlier one). -/
theorem c9_absent_id (embd : String → List Int) (sim : List Int → List Int → Int)
    (uuid : Nat → String) (messages : List Message) (i : Nat)
    (h : i < (extractSeeds messages).length)
    (hnone : ((extractSeeds messages).getD i defSeed).id = none)
    (hfirst : ∀ j, j < i → ((extractSeeds messages).getD j defSeed).id ≠ none) :
    ((cluster embd sim uuid messages).getD i defTopic).ids.head? = some none := by
  have hlen : i < (candidateTopics embd sim uuid messages).length := by
    simpa [candidateTopics] using h
  have hslen : i < (extractSeeds messages).length := h
  have hcand :
      ((candidateTopics embd sim uuid messages).getD i defTopic).ids =
        none :: (claimIds [none]
          ((query sim (embd ((extractSeeds messages).getD i defSeed).title) 50
            (ingest embd uuid 0 []
              (messages.filter (fun m => decide (m.role ≠ "tool"))))).map
            (fun r => some r.id))).1 := by
    rw [List.getD_eq_getElem _ _ hlen]
    simp only [candidateTopics, List.getElem_map]
    rw [← List.getD_eq_getElem _ defSeed (by simpa [candidateTopics] using hlen), hnone]
    simp [dedupKeepFirst, claimIds]
  have hprior : ∀ j, j < i →
      (none : Option String) ∉
        ((candidateTopics embd sim uuid messages).getD j defTopic).ids := by
    intro j hj hmem
    have hjlen : j < (candidateTopics embd sim uuid messages).length :=
      Nat.lt_trans hj hlen
    rw [List.getD_eq_getElem _ _ hjlen] at hmem
    simp only [candidateTopics, List.getElem_map] at hmem
    have hsub := claimIds_fst_subset _ [] _ hmem
    rcases List.mem_cons.1 hsub with hid | hhit
    · refine hfirst j hj ?_
      rw [List.getD_eq_getElem _ defSeed (by simpa [candidateTopics] using hjlen)]
      exact hid.symm
    · rcases List.mem_map.1 hhit with ⟨r, _, hr⟩
      exact Option.noConfusion hr
  rcases resolve_getD_claim (candidateTopics embd sim uuid messages) [] i none hlen
      (List.not_mem_nil _) hprior with ⟨b, hxb, heq⟩
  rw [cluster, heq, hcand]
  simp [claimIds, hxb]

/-- Witness for the amended C9 at a single id-less user message: the
topic keeps the absent id in first position while the message itself was
indexed under a generated UUID. -/
theorem c9_absent_id_witness :
    0 < (extractSeeds [msgNoId]).length ∧
      ((cluster embedM dotSim uuidN [msgNoId]).getD 0 defTopic).ids.head? = some none :=
  ⟨by decide, c9_absent_id embedM dotSim uuidN [msgNoId] 0 (by decide) (by decide)
    (fun j hj => absurd hj (Nat.not_lt_zero j))⟩

/-- Claim C10: assuming the index query with `k = 50` returns at most 50
hits (which the query model guarantees), every topic returned by
`cluster` carries at most 51 ids. -/
theorem c10_topic_size (embd : String → List Int) (sim : List Int → List Int → Int)
    (uuid : Nat → String) (messages : List Message) (t : Topic)
    (h : t ∈ cluster embd sim uuid messages) :
    t.ids.length ≤ 51 := by
  rcases resolve_mem_topic _ _ t h with ⟨t0, ht0, hlen⟩
  simp only [candidateTopics, List.mem_map] at ht0
  rcases ht0 with ⟨s, _, rfl⟩
  refine le_trans hlen (le_trans (claimIds_fst_length_le _ []) ?_)
  simp only [List.length_cons, List.length_map]
  have := query_length_le sim (embd s.title) 50
    (ingest embd uuid 0 [] (messages.filter (fun m => decide (m.role ≠ "tool"))))
  omega

/-- Witness for C10 at a concrete run. -/
theorem c10_topic_size_witness :
    (⟨"hi", [none, some "uuid-0"]⟩ : Topic) ∈ cluster embedM dotSim uuidN [msgNoId] ∧
      (⟨"hi", [none, some "uuid-0"]⟩ : Topic).ids.length ≤ 51 :=
  ⟨by decide, c10_topic_size embedM dotSim uuidN [msgNoId] _ (by decide)⟩

theorem idKey_some (o : Option String) (s : String) (h : idKey o = some s) :
    o = some s := by
  cases o with
  | none => simp [idKey] at h
  | some t =>
    simp only [idKey] at h
    by_cases ht : t = ""
    · rw [if_pos ht] at h; exact Option.noConfusion h
    · rw [if_neg ht] at h; exact h

theorem extractSeeds_mem (messages : List Message) (s : Seed)
    (hs : s ∈ extractSeeds messages) :
    ∃ m, m ∈ messages ∧ m.role = "user" ∧ s.id = m.id := by
  have h1 := List.take_subset 12 _ hs
  have h2 := List.mem_filter.1 h1
  rcases List.mem_map.1 h2.1 with ⟨m, hm, rfl⟩
  have h3 := List.mem_filter.1 hm
  exact ⟨m, h3.1, of_decide_eq_true h3.2, rfl⟩

/-- Claim C2 as stated fails on the code: a single user message without
an id contributes both its seed's absent id and the generated UUID it was
indexed under, so two ids are assigned for one non-tool message. -/
theorem c2_counterexample :
    ¬ (((cluster embedM dotSim uuidN [msgNoId]).map (fun t => t.ids.length)).sum ≤
        ([msgNoId].filter (fun m => decide (m.role ≠ "tool"))).length) := by
  decide

/-- Claim C2 amended: provided every user message carries a present,
non-empty id, the total number of ids assigned across all topics is at
most the number of non-tool messages. -/
theorem c2_coverage_bound (embd : String → List Int) (sim : List Int → List Int → Int)
    (uuid : Nat → String) (messages : List Message)
    (h : ∀ m ∈ messages, m.role = "user" → idKey m.id ≠ none) :
    ((cluster embd sim uuid messages).map (fun t => t.ids.length)).sum ≤
      (messages.filter (fun m => decide (m.role ≠ "tool"))).length := by
  have hsum : ((cluster embd sim uuid messages).map (fun t => t.ids.length)).sum =
      ((cluster embd sim uuid messages).map Topic.ids).flatten.length := by
    rw [List.length_flatten, List.map_map]
    rfl
  have hnodup : ((cluster embd sim uuid messages).map Topic.ids).flatten.Nodup :=
    (resolve_flatten_nodup (candidateTopics embd sim uuid messages) []).1
  have hsub : ((cluster embd sim uuid messages).map Topic.ids).flatten ⊆
      ((ingest embd uuid 0 []
        (messages.filter (fun m => decide (m.role ≠ "tool")))).map
          VectorRecord.id).map some := by
    intro x hx
    rcases resolve_flatten_subset (candidateTopics embd sim uuid messages) [] x hx with
      ⟨t, ht, hxt⟩
    simp only [candidateTopics, List.mem_map] at ht
    rcases ht with ⟨s, hs, rfl⟩
    have hx2 := claimIds_fst_subset _ [] x hxt
    rcases List.mem_cons.1 hx2 with rfl | hhit
    · rcases extractSeeds_mem messages s hs with ⟨m, hm, hrole, hid⟩
      cases hk : idKey m.id with
      | none => exact absurd hk (h m hm hrole)
      | some s' =>
        have hmid := idKey_some m.id s' hk
        have hmrel : m ∈ messages.filter (fun m => decide (m.role ≠ "tool")) :=
          List.mem_filter.2 ⟨hm, by simp [hrole]⟩
        have hmem := ingest_id_mem_of embd uuid _ m s' 0 [] hmrel hk
        rw [hid, hmid]
        exact List.mem_map.2 ⟨s', hmem, rfl⟩
    · rcases List.mem_map.1 hhit with ⟨r, hr, rfl⟩
      have hrstore := query_subset sim (embd s.title) 50 _ r hr
      exact List.mem_map.2 ⟨r.id, List.mem_map.2 ⟨r, hrstore, rfl⟩, rfl⟩
  have hle := (List.subperm_of_subset hnodup hsub).length_le
  rw [hsum]
  refine le_trans hle ?_
  rw [List.length_map, List.length_map]
  exact le_trans (ingest_length_le embd uuid _ 0 []) (by simp)

/-- Witness for the amended C2 at the spec scenario. -/
theorem c2_coverage_bound_witness :
    (∀ m ∈ msgs3, m.role = "user" → idKey m.id ≠ none) ∧
      ((cluster embedM dotSim uuidN msgs3).map (fun t => t.ids.length)).sum ≤
        (msgs3.filter (fun m => decide (m.role ≠ "tool"))).length :=
  ⟨by decide, c2_coverage_bound embedM dotSim uuidN msgs3 (by decide)⟩

/-- Claim C3 as stated fails on the code: with a user message lacking an
id, the generated UUID lands in the index, is returned by the query, and
differs between two runs, so the topic sequences differ. -/
theorem c3_counterexample :
    cluster embedM dotSim (fun _ => "a") [msgNoId] ≠
      cluster embedM dotSim (fun _ => "b") [msgNoId] := by
  decide

/-- Claim C3 amended: provided every non-tool message carries a present,
non-empty id, `randomUUID` is never consulted and two runs with the same
messages, embedder and similarity produce identical topic sequences,
whatever UUID sources the two runs draw from. -/
theorem c3_determinism (embd : String → List Int) (sim : List Int → List Int → Int)
    (u1 u2 : Nat → String) (messages : List Message)
    (h : ∀ m ∈ messages, m.role ≠ "tool" → idKey m.id ≠ none) :
    cluster embd sim u1 messages = cluster embd sim u2 messages := by
  have hing : ingest embd u1 0 [] (messages.filter (fun m => decide (m.role ≠ "tool"))) =
      ingest embd u2 0 [] (messages.filter (fun m => decide (m.role ≠ "tool"))) := by
    refine ingest_uuid_irrel embd u1 u2 _ ?_ 0 0 []
    intro m hm
    have h2 := List.mem_filter.1 hm
    exact h m h2.1 (of_decide_eq_true h2.2)
  simp only [cluster, candidateTopics]
  rw [hing]

/-- Witness for the amended C3 at the spec scenario. -/
theorem c3_determinism_witness :
    (∀ m ∈ msgs3, m.role ≠ "tool" → idKey m.id ≠ none) ∧
      cluster embedM dotSim (fun _ => "a") msgs3 =
        cluster embedM dotSim (fun _ => "b") msgs3 :=
  ⟨by decide, c3_determinism embedM dotSim (fun _ => "a") (fun _ => "b") msgs3 (by decide)⟩

theorem seeds_filterMap (ms : List Message) :
    ((ms.filter (fun m => decide (m.role = "user"))).map
        (fun m => Seed.mk m.id (firstLine80 (msgText m)))).filter
      (fun s => decide (s.title ≠ "")) =
      ms.filterMap (fun m =>
        if m.role = "user" then
          if firstLine80 (msgText m) = "" then none
          else some (Seed.mk m.id (firstLine80 (msgText m)))
        else none) := by
  induction ms with
  | nil => rfl
  | cons m ms ih =>
    simp only [ne_eq, decide_not] at ih
    by_cases h1 : m.role = "user"
    · by_cases h2 : firstLine80 (msgText m) = ""
      · simp [List.filter_cons, List.filterMap_cons, h1, h2, ih]
      · simp [List.filter_cons, List.filterMap_cons, h1, h2, ih]
    · simp [List.filter_cons, List.filterMap_cons, h1, ih]

theorem seeds_qualifying_length (ms : List Message) :
    (ms.filterMap (fun m =>
        if m.role = "user" then
          if firstLine80 (msgText m) = "" then none
          else some (Seed.mk m.id (firstLine80 (msgText m)))
        else none)).length = qualifyingCount ms := by
  induction ms with
  | nil => rfl
  | cons m ms ih =>
    by_cases h1 : m.role = "user"
    · by_cases h2 : firstLine80 (msgText m) = ""
      · simp [List.filterMap_cons, qualifyingCount, List.filter_cons, h1, h2, ih]
      · simp [List.filterMap_cons, qualifyingCount, List.filter_cons, h1, h2, ih]
    · simp [List.filterMap_cons, qualifyingCount, List.filter_cons, h1, ih]

/-- Claim C4: the seeds are exactly the first 12 of the sequence obtained
by taking the user messages in order, titling each with the first line of
its text truncated to 80 characters, and dropping empty titles before the
cap; with more than 12 qualifying user messages, exactly 12 seeds result. -/
theorem c4_seed_extraction (messages : List Message) :
    extractSeeds messages = specSeeds messages ∧
      (extractSeeds messages).length = min 12 (qualifyingCount messages) := by
  have hkey := seeds_filterMap messages
  constructor
  · rw [extractSeeds, specSeeds, hkey]
  · rw [extractSeeds, hkey, List.length_take, seeds_qualifying_length]

end Harvestflow
